import Mathlib

/-!
Verification of the message-deletion bot (src/bot.py) against its design
specification.  The Python source is shallowly embedded below:

* text is modelled as `List Char` / `String`;
* Python's `str.lower()` / `re.IGNORECASE` case folding is modelled with
  `Char.toLower`, i.e. ASCII case folding (the claims under scrutiny only
  exercise ASCII case pairs);
* Python's `\w` (`re` word character) is modelled as ASCII alphanumeric
  or underscore, and `\s` as ASCII whitespace;
* `re.search(p, t)` for the concrete patterns used by the bot is modelled
  as the (decidable) existence of a substring of `t` in the language of
  `p`; for each pattern this is computed by an explicit scanner;
* the module-level mutable state (`flagged_words`, `banned_words`,
  `auto_delete_links`, `auto_delete_joins`, `auto_delete_promotions`)
  becomes an explicit `Store` value threaded through the operations.

A note on the source text: the file in the repository is mojibake — the
emoji that once appeared in `excessive_emoji_pattern` and in the last two
`promotional_patterns` were decoded with the wrong codec, so the file
literally contains characters such as U+201A, U+00F9, U+00F3, U+00D4,
U+220F, U+00E8.  The running program therefore matches exactly those
characters, and so does this embedding (the codepoints below are the ones
present in src/bot.py).
-/

/-! ## Basic list/string helpers -/

/-- Exact prefix test: `startsL pat s` is true when `pat` is a prefix of
`s`, comparing characters with `==` (models Python `str.startswith` /
anchored literal regex matching). -/
def startsL : List Char → List Char → Bool
  | [], _ => true
  | _ :: _, [] => false
  | a :: p, b :: s => a == b && startsL p s

/-- `containsSub pat s` — `pat` occurs in `s` as a contiguous substring.
Models Python's `pat in s` on strings. -/
def containsSub (pat s : List Char) : Bool :=
  s.tails.any (fun suf => startsL pat suf)

/-- Case-insensitive (ASCII) equality of two character lists. -/
def ciEqL : List Char → List Char → Bool
  | [], [] => true
  | a :: p, b :: s => (a.toLower == b.toLower) && ciEqL p s
  | _, _ => false

/-- `stripCI pat s = some r` iff `s = q ++ r` for some `q` that equals
`pat` up to (ASCII) case.  Models matching a case-insensitive literal at
the start of `s`, returning the rest. -/
def stripCI : List Char → List Char → Option (List Char)
  | [], s => some s
  | _ :: _, [] => none
  | a :: p, b :: s => if a.toLower == b.toLower then stripCI p s else none

/-- Case-insensitive substring containment. -/
def containsSubCI (pat s : List Char) : Bool :=
  s.tails.any (fun suf => (stripCI pat suf).isSome)

/-- Case-insensitive suffix test. -/
def endsCI (pat s : List Char) : Bool :=
  ciEqL (s.drop (s.length - pat.length)) pat && decide (pat.length ≤ s.length)

/-- First character satisfies `f`. -/
def headSat (f : Char → Bool) : List Char → Bool
  | [] => false
  | c :: _ => f c

/-- ASCII lower-casing of a string, as a character list.  Models
Python's `str.lower()` (the words stored by the bot and the claims'
inputs are ASCII). -/
def lowerL (s : String) : List Char :=
  s.toList.map Char.toLower

/-! ## Promotion heuristic (`MessageDeleterBot.is_promotional_message`) -/

/-- The `promo_keywords` list of `is_promotional_message`, verbatim. -/
def promoKeywords : List String :=
  ["airdrop", "drop", "token", "coin", "crypto", "free", "earn", "profit",
   "refer", "referral", "bonus", "reward", "withdrawal", "withdraw",
   "meta core", "metacore", "base", "network issue", "server issue",
   "notice from", "dear users", "currently experiencing", "team is working",
   "continue referring", "more you refer", "thanks for your patience"]

/-- `keyword_matches`: how many entries of `promo_keywords` occur in the
lower-cased text (`sum(1 for keyword in promo_keywords if keyword in
text_lower)`). -/
def countPromoKeywords (text : String) : Nat :=
  promoKeywords.countP (fun kw => containsSub (kw.toList) (lowerL text))

/-- Python `\w` (ASCII fragment): letters, digits, underscore. -/
def wordChar (c : Char) : Bool :=
  c.isAlphanum || c == '_'

/-- `re.search(r'@\w*bot\b', text, re.IGNORECASE)`: some `'@'` in the text
is followed by a (maximal) run of word characters ending in `bot`; the
word boundary `\b` forces `bot` to sit at the end of the run. -/
def hasBotMention (text : String) : Bool :=
  text.toList.tails.any (fun suf =>
    match suf with
    | '@' :: rest => endsCI (['b', 'o', 't']) (rest.takeWhile wordChar)
    | _ => false)

/-- The character class of `excessive_emoji_pattern` — the mojibake
characters literally present in src/bot.py line 107. -/
def emojiChars : List Char :=
  ['‚', 'ù', 'ó', 'Ô', '∏', 'è',
   '', 'ü', 'î', '•', 'ú', 'Ö',
   'û', '°']

/-- `re.search(excessive_emoji_pattern, text)` — five or more consecutive
characters from the class (no flags on this search). -/
def hasExcessiveEmojis (text : String) : Bool :=
  text.toList.tails.any (fun suf =>
    decide (5 ≤ (suf.takeWhile (fun c => emojiChars.contains c)).length))

/-- Remainder of `s` after the first occurrence of `pat` (case-insensitive),
or `none`.  Used to model `a.*b`-style patterns: `re.search` succeeds iff
each literal occurs after the previous one, and taking the leftmost
occurrence of a fixed-length literal minimises its end position. -/
def dropAfterCI (pat : List Char) : List Char → Option (List Char)
  | [] => match stripCI pat [] with
          | some r => some r
          | none => none
  | b :: s => match stripCI pat (b :: s) with
              | some r => some r
              | none => dropAfterCI pat s

/-- `re.search(p₁ ++ ".*" ++ p₂ ++ ".*" ++ ⋯, text, IGNORECASE | DOTALL)`
for literal pieces `pᵢ`: each piece occurs after the end of the previous
one. -/
def containsSeqCI (parts : List (List Char)) (s : List Char) : Bool :=
  match parts with
  | [] => true
  | p :: ps =>
    match dropAfterCI p s with
    | some r => containsSeqCI ps r
    | none => false

/-- The literal pieces of the six `promotional_patterns` that are built
from literals joined by `.*` (src/bot.py lines 128–133). -/
def promoSeqPatterns : List (List String) :=
  [["notice from", "core"],
   ["dear users", "experiencing"],
   ["server", "issue", "withdrawal"],
   ["continue", "referring", "friends"],
   ["more you refer", "profit"],
   ["thanks", "patience", "support"]]

/-- The two-character class of the seventh promotional pattern
(line 134: the mojibake of an emoji) — `{3,}` runs of these. -/
def bangChars : List Char :=
  ['‚', 'ù', 'ó', 'Ô', '∏', 'è']

/-- First three characters all belong to `bangChars` (a `{3,}` run starts
here; longer runs are absorbed by the adjacent `.*`). -/
def bang3 (s : List Char) : Bool :=
  match s with
  | a :: b :: c :: _ =>
    bangChars.contains a && bangChars.contains b && bangChars.contains c
  | _ => false

/-- Does a `{3,}` run of `bangChars` occur anywhere in `s`? -/
def hasBang3 (s : List Char) : Bool :=
  s.tails.any bang3

/-- Pattern 7, `[…]{3,}.*@\w*bot.*[…]{3,}` (IGNORECASE | DOTALL): a run of
three class characters, later an `@` whose following word-character run
contains `bot`, later another run of three class characters.  The class
characters are not word characters, so the trailing run necessarily
starts at or after the end of the mention's word run. -/
def promoPattern7 (s : List Char) : Bool :=
  s.tails.any (fun suf =>
    bang3 suf &&
    (suf.drop 3).tails.any (fun suf2 =>
      match suf2 with
      | '@' :: rest =>
        containsSubCI (['b', 'o', 't']) (rest.takeWhile wordChar) &&
        hasBang3 (rest.dropWhile wordChar)
      | _ => false))

/-- `@\w*bot` immediately followed by the rest of a pattern that cannot
start with a word character: the word run after `@` must end in `bot`;
returns the remainder after the run. -/
def dropMentionBot (s : List Char) : Option (List Char) :=
  match s with
  | '@' :: rest =>
    if endsCI (['b', 'o', 't']) (rest.takeWhile wordChar) then
      some (rest.dropWhile wordChar)
    else none
  | _ => none

/-- ASCII whitespace, modelling `\s`. -/
def wsChar (c : Char) : Bool :=
  c == ' ' || c == '\t' || c == '\n' || c == '\r' || c == '\x0b' || c == '\x0c'

/-- The literal `‚úÖ` of pattern 8 (mojibake of an emoji). -/
def checkLit : List Char := ['‚', 'ú', 'Ö']

/-- The literal `‚û°Ô∏è` of pattern 8 (mojibake of an emoji). -/
def arrowLit : List Char := ['‚', 'û', '°', 'Ô', '∏', 'è']

/-- Pattern 8, `‚úÖ@\w*bot\s*‚û°Ô∏è@\w*bot\s*‚úÖ@\w*bot` (IGNORECASE |
DOTALL): the first two mentions are followed by `\s*` and a non-word
literal, so their word runs must end in `bot`; the final mention ends the
pattern, so `bot` need only occur inside its word run. -/
def promoPattern8 (s : List Char) : Bool :=
  s.tails.any (fun suf =>
    match stripCI checkLit suf with
    | none => false
    | some s1 =>
      match dropMentionBot s1 with
      | none => false
      | some s2 =>
        match stripCI arrowLit (s2.dropWhile wsChar) with
        | none => false
        | some s3 =>
          match dropMentionBot s3 with
          | none => false
          | some s4 =>
            match stripCI checkLit (s4.dropWhile wsChar) with
            | none => false
            | some s5 =>
              match s5 with
              | '@' :: rest => containsSubCI (['b', 'o', 't']) (rest.takeWhile wordChar)
              | _ => false)

/-- The `promotional_patterns` loop of `is_promotional_message`
(src/bot.py lines 127–140): true iff any of the eight patterns matches. -/
def anyPromoPattern (text : String) : Bool :=
  promoSeqPatterns.any
      (fun ps => containsSeqCI (ps.map (fun p => p.toList)) (lowerL text))
    || promoPattern7 (text.toList)
    || promoPattern8 (text.toList)

/-- `MessageDeleterBot.is_promotional_message` (src/bot.py lines 90–142). -/
def is_promotional_message (text : String) : Bool :=
  if 2 ≤ countPromoKeywords text then true
  else if hasBotMention text && decide (1 ≤ countPromoKeywords text) then true
  else if hasExcessiveEmojis text && decide (1 ≤ countPromoKeywords text) then true
  else anyPromoPattern text

/-! ## Link detector (`url_patterns` in `monitor_messages`, lines 450–456)

The five regexes are searched with `re.IGNORECASE` over the raw message
text.  Under IGNORECASE the character class
`[$-_@.&+]|[!*\\(\\),]|[a-zA-Z]|[0-9]` (plus the `%hh` alternative, whose
`%` already lies in the `$-_` byte range) accepts exactly `!`, the byte
range `0x24`–`0x5F`, and the lower-case letters. -/

/-- One character of the URL-body class of patterns 1 and 2. -/
def urlChar (c : Char) : Bool :=
  c.toNat == 0x21
    || (decide (0x24 ≤ c.toNat) && decide (c.toNat ≤ 0x5F))
    || (decide (0x61 ≤ c.toNat) && decide (c.toNat ≤ 0x7A))

/-- A case-insensitive literal followed by at least one character
satisfying `f`, starting at this position. -/
def afterLit (lit : List Char) (f : Char → Bool) (suf : List Char) : Bool :=
  match stripCI lit suf with
  | some r => headSat f r
  | none => false

/-- `re.search` of `lit` + one-or-more `f`-characters: the literal occurs
somewhere, immediately followed by an `f`-character (further body
characters only lengthen the match). -/
def hasLitThen (lit : List Char) (f : Char → Bool) (t : String) : Bool :=
  t.toList.tails.any (afterLit lit f)

/-- Pattern 1: `http[s]?://(…)+`. -/
def hasSchemeURL (t : String) : Bool :=
  hasLitThen (("http://").toList) urlChar t || hasLitThen (("https://").toList) urlChar t

/-- Pattern 2: `www\.(…)+`. -/
def hasWWWLink (t : String) : Bool :=
  hasLitThen (("www.").toList) urlChar t

/-- Pattern 4: `t\.me/\w+`. -/
def hasTmeLink (t : String) : Bool :=
  hasLitThen (("t.me/").toList) wordChar t

/-- Pattern 5, `@\w+\.\w+`, at this position: `\w` does not match `.`,
so the `\w+` run after `@` is exactly the maximal word run, which must be
non-empty and followed by `.` and another word character. -/
def mentionDotAt : List Char → Bool
  | [] => false
  | a :: rest =>
    a == '@' &&
    (match rest.dropWhile wordChar with
     | d :: c :: _ => d == '.' && !(rest.takeWhile wordChar).isEmpty && wordChar c
     | _ => false)

/-- Pattern 5: `@\w+\.\w+` searched anywhere. -/
def hasMentionDot (t : String) : Bool :=
  t.toList.tails.any mentionDotAt

/-- A domain label, `[a-zA-Z0-9](?:[a-zA-Z0-9-]{0,61}[a-zA-Z0-9])?`:
1 to 63 characters, alphanumeric at both ends, hyphens allowed inside. -/
def isLabel (l : List Char) : Bool :=
  !l.isEmpty && decide (l.length ≤ 63)
    && headSat Char.isAlphanum l && (l.getLastD '-').isAlphanum
    && l.all (fun c => c.isAlphanum || c == '-')

/-- ASCII letter. -/
def asciiLetter (c : Char) : Bool :=
  (decide ('A' ≤ c) && decide (c ≤ 'Z')) || (decide ('a' ≤ c) && decide (c ≤ 'z'))

/-- The top-level segment `[a-zA-Z]{2,}`. -/
def isTld (l : List Char) : Bool :=
  decide (2 ≤ l.length) && l.all asciiLetter

/-- Split on `'.'`, as first-component/rest so the result is never empty:
`splitDotP s = (h, r)` means `h :: r` are the dot-separated pieces of
`s`. -/
def splitDotP : List Char → List Char × List (List Char)
  | [] => ([], [])
  | c :: t =>
    if c == '.' then ([], (splitDotP t).1 :: (splitDotP t).2)
    else (c :: (splitDotP t).1, (splitDotP t).2)

/-- The dot-separated pieces of `s`. -/
def splitDot (s : List Char) : List (List Char) :=
  (splitDotP s).1 :: (splitDotP s).2

/-- A full match of pattern 3's core,
`(?:label\.)+[a-zA-Z]{2,}`: splitting on dots gives at least two pieces,
all but the last are labels and the last is a top-level segment. -/
def isDomainCore (s : List Char) : Bool :=
  decide (2 ≤ (splitDot s).length)
    && (splitDot s).dropLast.all isLabel
    && isTld ((splitDot s).getLastD [])

/-- Pattern 3: `(?:[a-zA-Z0-9](?:[a-zA-Z0-9-]{0,61}[a-zA-Z0-9])?\.)+[a-zA-Z]{2,}`
searched anywhere: some contiguous substring is a domain core. -/
def hasBareDomain (t : String) : Bool :=
  t.toList.tails.any (fun suf => suf.inits.any isDomainCore)

/-- The `for pattern in url_patterns: if re.search(pattern, original_text,
re.IGNORECASE)` loop of `monitor_messages`: true iff any of the five
patterns matches the raw text. -/
def containsLink (t : String) : Bool :=
  hasSchemeURL t || hasWWWLink t || hasBareDomain t || hasTmeLink t || hasMentionDot t

/-! ## Policy store and its operations -/

/-- The three module-level feature toggles (src/bot.py lines 22–24). -/
structure Toggles where
  linkDeletion : Bool
  joinLeaveDeletion : Bool
  promotionDeletion : Bool
deriving DecidableEq, Repr

/-- Their initial values: `auto_delete_links = False`,
`auto_delete_joins = True`, `auto_delete_promotions = True`. -/
def defaultToggles : Toggles :=
  { linkDeletion := false, joinLeaveDeletion := true, promotionDeletion := true }

/-- The module-level mutable policy state: `flagged_words`,
`banned_words` and the toggles.  The Python sets are modelled as
duplicate-free lists; Python set iteration order is unspecified, list
order stands in for it. -/
structure Store where
  flagged : List String
  banned : List String
  toggles : Toggles
deriving DecidableEq, Repr

/-- Start-up state: both word sets empty, default toggles. -/
def emptyStore : Store :=
  { flagged := [], banned := [], toggles := defaultToggles }

/-- Single pass of Python's `str.split()`: accumulate the current word
(reversed) and emit it at each whitespace boundary, dropping empties. -/
def wordsOfAux : List Char → List Char → List (List Char)
  | [], acc => if acc.isEmpty then [] else [acc.reverse]
  | c :: t, acc =>
    if c.isWhitespace then
      if acc.isEmpty then wordsOfAux t [] else acc.reverse :: wordsOfAux t []
    else wordsOfAux t (c :: acc)

/-- The whitespace-separated words of a character list (Python
`str.split()` with no separator: runs of whitespace delimit, no empty
words). -/
def wordsOf (s : List Char) : List (List Char) :=
  wordsOfAux s []

/-- Join word groups with single spaces. -/
def joinSp : List (List Char) → List Char
  | [] => []
  | [w] => w
  | w :: ws => w ++ ' ' :: joinSp ws

/-- The normalized form a phrase has when stored by
`flag_command`/`ban_command`/`unflag_command`/`unban_command`. -/
def normalizeWord (phrase : String) : String :=
  String.mk ((joinSp (wordsOf phrase.toList)).map Char.toLower)

/-- `flag_command` (lines 242–254): reject an empty argument list,
otherwise add the normalized word (`set.add`: no-op when present). -/
def addFlagged (st : Store) (phrase : String) : Store :=
  let w := normalizeWord phrase
  if w = "" then st
  else if w ∈ st.flagged then st
  else { st with flagged := st.flagged ++ [w] }

/-- `ban_command` (lines 256–268). -/
def addBanned (st : Store) (phrase : String) : Store :=
  let w := normalizeWord phrase
  if w = "" then st
  else if w ∈ st.banned then st
  else { st with banned := st.banned ++ [w] }

/-- `unflag_command` (lines 270–285): report whether the normalized word
was present and remove it when it was. -/
def removeFlagged (st : Store) (phrase : String) : Store × Bool :=
  let w := normalizeWord phrase
  if w ∈ st.flagged then ({ st with flagged := st.flagged.erase w }, true)
  else (st, false)

/-- `unban_command` (lines 287–302). -/
def removeBanned (st : Store) (phrase : String) : Store × Bool :=
  let w := normalizeWord phrase
  if w ∈ st.banned then ({ st with banned := st.banned.erase w }, true)
  else (st, false)

/-- The recognized on-forms of the three toggle commands. -/
def onForms : List String := ["on", "enable", "1", "true"]

/-- The recognized off-forms. -/
def offForms : List String := ["off", "disable", "0", "false"]

/-- ASCII lower-casing as a `String`. -/
def lowerS (s : String) : String :=
  String.mk (s.toList.map Char.toLower)

/-- Argument handling shared by `toggle_links`, `toggle_joins` and
`toggle_promotions` (lines 338–359, 196–217, 219–240): no argument
negates the toggle; a recognized form sets it; anything else is an
error reply that leaves the toggle alone. -/
def toggleArgValue (current : Bool) (args : List String) : Bool :=
  match args with
  | [] => !current
  | a :: _ =>
    if lowerS a ∈ onForms then true
    else if lowerS a ∈ offForms then false
    else current

/-- `/links` command effect on the policy state. -/
def toggleLinksCmd (st : Store) (args : List String) : Store :=
  { st with toggles :=
      { st.toggles with linkDeletion := toggleArgValue st.toggles.linkDeletion args } }

/-- `/joins` command effect on the policy state. -/
def toggleJoinsCmd (st : Store) (args : List String) : Store :=
  { st with toggles :=
      { st.toggles with joinLeaveDeletion := toggleArgValue st.toggles.joinLeaveDeletion args } }

/-- `/promos` command effect on the policy state. -/
def togglePromosCmd (st : Store) (args : List String) : Store :=
  { st with toggles :=
      { st.toggles with promotionDeletion := toggleArgValue st.toggles.promotionDeletion args } }

/-! ## Classifier (`monitor_messages`, lines 406–474) -/

/-- The verdict's reason code; the word-based reasons carry the matched
phrase (the code interpolates it into the log line). -/
inductive Reason where
  | flaggedWord (w : String)
  | bannedWord (w : String)
  | promotional
  | link
  | none
deriving DecidableEq, Repr

/-- The classification outcome: `should_delete` plus `reason`. -/
structure Verdict where
  shouldDelete : Bool
  reason : Reason
deriving DecidableEq, Repr

/-- The `for word in …: if word in message_text: … break` loops: the
first stored word occurring in the lowered text. -/
def findMatch (words : List String) (low : List Char) : Option String :=
  words.find? (fun w => containsSub (w.toList) low)

/-- The classification pipeline of `monitor_messages`: privileged senders
are exempt (the handler returns before any check, lines 417–419); then
flagged words, banned words, the promotion heuristic (gated by its
toggle), and links (gated by theirs), first match winning. -/
def classify (st : Store) (text : String) (privileged : Bool) : Verdict :=
  if privileged then { shouldDelete := false, reason := Reason.none }
  else
    match findMatch st.flagged (lowerL text) with
    | some w => { shouldDelete := true, reason := Reason.flaggedWord w }
    | none =>
      match findMatch st.banned (lowerL text) with
      | some w => { shouldDelete := true, reason := Reason.bannedWord w }
      | none =>
        if st.toggles.promotionDeletion && is_promotional_message text then
          { shouldDelete := true, reason := Reason.promotional }
        else if st.toggles.linkDeletion && containsLink text then
          { shouldDelete := true, reason := Reason.link }
        else { shouldDelete := false, reason := Reason.none }

/-! ## Claims -/

/-- C1: a message whose sender is privileged is never deleted — for every
store (word lists and toggles alike) the classifier returns
`{shouldDelete := false, reason := none}` (the handler returns before any
rule runs, src/bot.py lines 417–419). -/
theorem privileged_exempt (st : Store) (text : String) :
    classify st text true = { shouldDelete := false, reason := Reason.none } := by
  simp [classify]

/-- C9: the deletion flag and the reason move together — `shouldDelete`
is true exactly when a non-`none` reason was recorded, and false exactly
when the reason is `none`, for every store, text and privilege bit. -/
theorem verdict_reason_invariant (st : Store) (text : String) (privileged : Bool) :
    ((classify st text privileged).shouldDelete = true
        ↔ (classify st text privileged).reason ≠ Reason.none)
    ∧ ((classify st text privileged).shouldDelete = false
        ↔ (classify st text privileged).reason = Reason.none) := by
  unfold classify
  by_cases hp : privileged = true <;> simp [hp]
  cases hf : findMatch st.flagged (lowerL text) <;> simp
  cases hb : findMatch st.banned (lowerL text) <;> simp
  by_cases h1 : st.toggles.promotionDeletion = true ∧ is_promotional_message text = true <;>
    simp [h1]
  by_cases h2 : st.toggles.linkDeletion = true ∧ containsLink text = true <;> simp [h2]

/-- C2: rule precedence — for a non-privileged message whose lowered text
contains some banned word and whose raw text contains a link, with both
the promotion and the link toggles on, the verdict deletes with a
word-based reason (flagged or banned), never with reason `link`. -/
theorem word_precedence_over_link (st : Store) (text : String)
    (hban : ∃ w ∈ st.banned, containsSub (w.toList) (lowerL text) = true)
    (hlink : containsLink text = true)
    (hpromo : st.toggles.promotionDeletion = true)
    (hlinks : st.toggles.linkDeletion = true) :
    (classify st text false).shouldDelete = true
    ∧ (∃ w, (classify st text false).reason = Reason.flaggedWord w
          ∨ (classify st text false).reason = Reason.bannedWord w)
    ∧ (classify st text false).reason ≠ Reason.link := by
  unfold classify
  cases hf : findMatch st.flagged (lowerL text) with
  | some w => exact ⟨by simp, ⟨w, Or.inl (by simp)⟩, by simp⟩
  | none =>
    cases hb : findMatch st.banned (lowerL text) with
    | some w => exact ⟨by simp, ⟨w, Or.inr (by simp)⟩, by simp⟩
    | none =>
      exfalso
      obtain ⟨w, hw, hsub⟩ := hban
      exact List.find?_eq_none.mp (by simpa [findMatch] using hb) w hw hsub

/-- Witness for C2 at a concrete store and message. -/
theorem word_precedence_over_link_witness :
    (∃ w ∈ (Store.mk [] [("scam")] ⟨true, true, true⟩).banned,
        containsSub (w.toList) (lowerL ("scam www.x.com")) = true)
    ∧ (classify (Store.mk [] [("scam")] ⟨true, true, true⟩) ("scam www.x.com") false).shouldDelete = true
    ∧ (∃ w, (classify (Store.mk [] [("scam")] ⟨true, true, true⟩) ("scam www.x.com") false).reason = Reason.flaggedWord w
          ∨ (classify (Store.mk [] [("scam")] ⟨true, true, true⟩) ("scam www.x.com") false).reason = Reason.bannedWord w)
    ∧ (classify (Store.mk [] [("scam")] ⟨true, true, true⟩) ("scam www.x.com") false).reason ≠ Reason.link :=
  ⟨by decide,
   word_precedence_over_link (Store.mk [] [("scam")] ⟨true, true, true⟩) ("scam www.x.com")
     (by decide) (by decide) (by decide) (by decide)⟩

/-- C4: the toggles default to link-deletion off, join/leave-deletion on,
promotion-deletion on; and with the link toggle off, a non-privileged
message that contains a link but matches no flagged or banned word and is
not promotional gets verdict `{false, none}` — the link check is never
reached. -/
theorem link_toggle_gating :
    defaultToggles
        = { linkDeletion := false, joinLeaveDeletion := true, promotionDeletion := true }
    ∧ emptyStore.toggles = defaultToggles
    ∧ ∀ (st : Store) (text : String),
        st.toggles.linkDeletion = false →
        (∀ w ∈ st.flagged, containsSub (w.toList) (lowerL text) = false) →
        (∀ w ∈ st.banned, containsSub (w.toList) (lowerL text) = false) →
        is_promotional_message text = false →
        containsLink text = true →
        classify st text false = { shouldDelete := false, reason := Reason.none } := by
  refine ⟨rfl, rfl, ?_⟩
  intro st text hlinkoff hflag hban hpromo _
  have hf : findMatch st.flagged (lowerL text) = none :=
    List.find?_eq_none.mpr
      (fun w hw => by simp only [Bool.not_eq_true]; exact hflag w hw)
  have hb : findMatch st.banned (lowerL text) = none :=
    List.find?_eq_none.mpr
      (fun w hw => by simp only [Bool.not_eq_true]; exact hban w hw)
  unfold classify
  rw [hf, hb]
  simp [hpromo, hlinkoff]

/-- Witness for C4: the default store and the message
`visit www.example.com now`. -/
theorem link_toggle_gating_witness :
    emptyStore.toggles.linkDeletion = false
    ∧ is_promotional_message ("visit www.example.com now") = false
    ∧ containsLink ("visit www.example.com now") = true
    ∧ classify emptyStore ("visit www.example.com now") false
        = { shouldDelete := false, reason := Reason.none } :=
  ⟨by decide, by decide, by decide,
   link_toggle_gating.2.2 emptyStore ("visit www.example.com now")
     (by decide) (fun w hw => by simp [emptyStore] at hw)
     (fun w hw => by simp [emptyStore] at hw)
     (by decide) (by decide)⟩

/-- C5: phrase matching is case-insensitive substring containment on
normalized text and stored phrases are normalized: after banning `scam`,
the message `this is a SCAM` is deleted with reason banned-word `scam`;
the phrase `  SCAM  ` normalizes to `scam`, and after flagging it every
text whose lowering contains `scam` is deleted with reason flagged-word
`scam`. -/
theorem banned_scam_scenario :
    classify (addBanned emptyStore ("scam")) ("this is a SCAM") false
        = { shouldDelete := true, reason := Reason.bannedWord ("scam") }
    ∧ normalizeWord ("  SCAM  ") = "scam"
    ∧ ∀ t : String, containsSub (("scam").toList) (lowerL t) = true →
        classify (addFlagged emptyStore ("  SCAM  ")) t false
          = { shouldDelete := true, reason := Reason.flaggedWord ("scam") } := by
  refine ⟨by decide, by decide, ?_⟩
  intro t ht
  have hst : addFlagged emptyStore ("  SCAM  ")
      = { flagged := [("scam")], banned := [], toggles := defaultToggles } := by decide
  rw [hst]
  have hf : findMatch [("scam")] (lowerL t) = some ("scam") := by
    unfold findMatch
    exact List.find?_cons_of_pos _ ht
  unfold classify
  rw [hf]
  rfl

/-- Witness for C5's universally quantified part. -/
theorem banned_scam_scenario_witness :
    containsSub (("scam").toList) (lowerL ("no SCAMS allowed")) = true
    ∧ classify (addFlagged emptyStore ("  SCAM  ")) ("no SCAMS allowed") false
        = { shouldDelete := true, reason := Reason.flaggedWord ("scam") } :=
  ⟨by decide, banned_scam_scenario.2.2 ("no SCAMS allowed") (by decide)⟩

/-- C6: the promotion heuristic is exactly the stated disjunction — true
iff at least two keywords occur, or a bot mention plus a keyword, or an
excessive-emoji run plus a keyword, or one of the fixed promotional
patterns matches. -/
theorem is_promotional_iff (text : String) :
    is_promotional_message text = true ↔
      (2 ≤ countPromoKeywords text
       ∨ (hasBotMention text = true ∧ 1 ≤ countPromoKeywords text)
       ∨ (hasExcessiveEmojis text = true ∧ 1 ≤ countPromoKeywords text)
       ∨ anyPromoPattern text = true) := by
  unfold is_promotional_message
  by_cases h1 : 2 ≤ countPromoKeywords text <;>
    by_cases hk : 1 ≤ countPromoKeywords text <;>
      by_cases hbm : hasBotMention text = true <;>
        by_cases hee : hasExcessiveEmojis text = true <;>
          simp_all

/-- C3 counterexample: the text `airdrop` contains two promotional
keywords (`airdrop` and its substring `drop`), so the heuristic returns
true on it, contradicting the claim's example of a one-keyword message. -/
theorem promo_airdrop_counterexample :
    countPromoKeywords ("airdrop") = 2 ∧ is_promotional_message ("airdrop") = true := by
  decide

/-- C3 as amended: a message in which exactly one keyword of the curated
list occurs, with no bot mention, no excessive-emoji run and no fixed
promotional pattern, is not promotional; a message with two distinct
keywords (such as `airdrop token`) is. -/
theorem promo_single_keyword_amended (t : String)
    (hk : countPromoKeywords t = 1)
    (hbm : hasBotMention t = false)
    (hee : hasExcessiveEmojis t = false)
    (hpat : anyPromoPattern t = false) :
    is_promotional_message t = false
    ∧ is_promotional_message ("airdrop token") = true := by
  refine ⟨?_, by decide⟩
  unfold is_promotional_message
  rw [hk]
  simp [hbm, hee, hpat]

/-- Witness for C3's amended statement: the one-keyword text `free`. -/
theorem promo_single_keyword_amended_witness :
    countPromoKeywords ("free") = 1
    ∧ hasBotMention ("free") = false
    ∧ hasExcessiveEmojis ("free") = false
    ∧ anyPromoPattern ("free") = false
    ∧ is_promotional_message ("free") = false :=
  ⟨by decide, by decide, by decide, by decide,
   (promo_single_keyword_amended ("free") (by decide) (by decide) (by decide) (by decide)).1⟩

/-- Erasing a member of a duplicate-free list removes exactly that
element. -/
theorem erase_exact (l : List String) (w : String) (hn : l.Nodup) :
    w ∉ l.erase w ∧ ∀ v, v ≠ w → (v ∈ l.erase w ↔ v ∈ l) :=
  ⟨hn.not_mem_erase, fun _ hv => List.mem_erase_of_ne hv⟩

/-- C7: removal reports presence of the normalized phrase; removing an
absent phrase changes nothing and reports false (`not found`); removing a
present phrase removes exactly that phrase from exactly that set. -/
theorem remove_word_semantics (st : Store) (phrase : String)
    (hfn : st.flagged.Nodup) (hbn : st.banned.Nodup) :
    ((removeFlagged st phrase).2 = true ↔ normalizeWord phrase ∈ st.flagged)
    ∧ (normalizeWord phrase ∉ st.flagged → removeFlagged st phrase = (st, false))
    ∧ (normalizeWord phrase ∈ st.flagged →
        normalizeWord phrase ∉ (removeFlagged st phrase).1.flagged
        ∧ (∀ v, v ≠ normalizeWord phrase →
            (v ∈ (removeFlagged st phrase).1.flagged ↔ v ∈ st.flagged))
        ∧ (removeFlagged st phrase).1.banned = st.banned
        ∧ (removeFlagged st phrase).1.toggles = st.toggles)
    ∧ ((removeBanned st phrase).2 = true ↔ normalizeWord phrase ∈ st.banned)
    ∧ (normalizeWord phrase ∉ st.banned → removeBanned st phrase = (st, false))
    ∧ (normalizeWord phrase ∈ st.banned →
        normalizeWord phrase ∉ (removeBanned st phrase).1.banned
        ∧ (∀ v, v ≠ normalizeWord phrase →
            (v ∈ (removeBanned st phrase).1.banned ↔ v ∈ st.banned))
        ∧ (removeBanned st phrase).1.flagged = st.flagged
        ∧ (removeBanned st phrase).1.toggles = st.toggles) := by
  unfold removeFlagged removeBanned
  by_cases hwf : normalizeWord phrase ∈ st.flagged <;>
    by_cases hwb : normalizeWord phrase ∈ st.banned <;>
      simp [hwf, hwb] <;>
        first
          | exact erase_exact _ _ hfn
          | exact erase_exact _ _ hbn
          | exact ⟨erase_exact _ _ hfn, erase_exact _ _ hbn⟩

/-- Witness for C7 at a concrete store and absent/present phrases. -/
theorem remove_word_semantics_witness :
    ([("scam")] : List String).Nodup
    ∧ ([("spam")] : List String).Nodup
    ∧ normalizeWord ("junk") ∉ ([("scam")] : List String)
    ∧ removeFlagged (Store.mk [("scam")] [("spam")] defaultToggles) ("junk")
        = (Store.mk [("scam")] [("spam")] defaultToggles, false) :=
  ⟨by decide, by decide, by decide,
   (remove_word_semantics (Store.mk [("scam")] [("spam")] defaultToggles) ("junk")
      (by decide) (by decide)).2.1 (by decide)⟩

/-- C10: a toggle command whose first argument is neither an on-form nor
an off-form leaves the policy state exactly as it was, for all three
toggles; with no argument the targeted toggle is negated. -/
theorem toggle_invalid_arg_semantics (st : Store) (a : String) (rest : List String)
    (hon : lowerS a ∉ onForms) (hoff : lowerS a ∉ offForms) :
    toggleLinksCmd st (a :: rest) = st
    ∧ toggleJoinsCmd st (a :: rest) = st
    ∧ togglePromosCmd st (a :: rest) = st
    ∧ (toggleLinksCmd st []).toggles.linkDeletion = !st.toggles.linkDeletion
    ∧ (toggleJoinsCmd st []).toggles.joinLeaveDeletion = !st.toggles.joinLeaveDeletion
    ∧ (togglePromosCmd st []).toggles.promotionDeletion = !st.toggles.promotionDeletion := by
  obtain ⟨f, b, l, j, p⟩ := st
  unfold toggleLinksCmd toggleJoinsCmd togglePromosCmd toggleArgValue
  simp [hon, hoff]

/-- Witness for C10 with the unrecognized argument `bogus`. -/
theorem toggle_invalid_arg_semantics_witness :
    lowerS ("bogus") ∉ onForms
    ∧ lowerS ("bogus") ∉ offForms
    ∧ toggleLinksCmd emptyStore [("bogus")] = emptyStore :=
  ⟨by decide, by decide,
   (toggle_invalid_arg_semantics emptyStore ("bogus") [] (by decide) (by decide)).1⟩

/-! ## The shape of the link detector (claim C8)

Specification-side predicates for the five URL shapes, written as
existential decompositions of the text, and equivalence proofs against
the scanners above. -/

/-- Scanning all suffixes finds `p` exactly when some split of `s`
satisfies it on the right part. -/
theorem tails_any_iff (p : List Char → Bool) (s : List Char) :
    s.tails.any p = true ↔ ∃ l r, s = l ++ r ∧ p r = true := by
  rw [List.any_eq_true]
  constructor
  · rintro ⟨x, hx, hp⟩
    obtain ⟨l, rfl⟩ := (List.mem_tails x s).mp hx
    exact ⟨l, x, rfl, hp⟩
  · rintro ⟨l, r, rfl, hp⟩
    exact ⟨r, (List.mem_tails r (l ++ r)).mpr ⟨l, rfl⟩, hp⟩

/-- Scanning all prefixes finds `p` exactly when some split of `s`
satisfies it on the left part. -/
theorem inits_any_iff (p : List Char → Bool) (s : List Char) :
    s.inits.any p = true ↔ ∃ l r, s = l ++ r ∧ p l = true := by
  rw [List.any_eq_true]
  constructor
  · rintro ⟨x, hx, hp⟩
    obtain ⟨r, rfl⟩ := (List.mem_inits x s).mp hx
    exact ⟨x, r, rfl, hp⟩
  · rintro ⟨l, r, rfl, hp⟩
    exact ⟨l, (List.mem_inits l (l ++ r)).mpr ⟨r, rfl⟩, hp⟩

/-- A case-insensitively equal list has the same length. -/
theorem ciEqL_length : ∀ q p : List Char, ciEqL q p = true → q.length = p.length := by
  intro q
  induction q with
  | nil => intro p h; cases p with
    | nil => rfl
    | cons a p' => simp [ciEqL] at h
  | cons b q' ih => intro p h; cases p with
    | nil => simp [ciEqL] at h
    | cons a p' =>
      simp only [ciEqL, Bool.and_eq_true] at h
      simp [ih p' h.2]

/-- `stripCI` succeeds exactly on the case-insensitive-literal splits. -/
theorem stripCI_some_iff (pat : List Char) : ∀ s r : List Char,
    stripCI pat s = some r ↔ ∃ q, s = q ++ r ∧ ciEqL q pat = true := by
  induction pat with
  | nil =>
    intro s r
    constructor
    · intro h
      simp only [stripCI, Option.some.injEq] at h
      exact ⟨[], by simp [h], rfl⟩
    · rintro ⟨q, hs, hq⟩
      cases q with
      | nil => simp only [stripCI, Option.some.injEq]; simpa using hs
      | cons a q' => simp [ciEqL] at hq
  | cons a p ih =>
    intro s r
    cases s with
    | nil =>
      constructor
      · intro h; simp [stripCI] at h
      · rintro ⟨q, hs, hq⟩
        cases q with
        | nil => simp [ciEqL] at hq
        | cons b q' => simp at hs
    | cons b s' =>
      constructor
      · intro h
        simp only [stripCI] at h
        by_cases hab : (a.toLower == b.toLower) = true
        · rw [if_pos hab] at h
          obtain ⟨q', hs', hq'⟩ := (ih s' r).mp h
          refine ⟨b :: q', by simp [hs'], ?_⟩
          simp only [ciEqL, Bool.and_eq_true]
          exact ⟨beq_iff_eq.mpr (beq_iff_eq.mp hab).symm, hq'⟩
        · rw [if_neg hab] at h; cases h
      · rintro ⟨q, hs, hq⟩
        cases q with
        | nil => simp [ciEqL] at hq
        | cons c q' =>
          simp only [List.cons_append, List.cons.injEq] at hs
          obtain ⟨rfl, hs'⟩ := hs
          simp only [ciEqL, Bool.and_eq_true] at hq
          have hab : (a.toLower == b.toLower) = true :=
            beq_iff_eq.mpr (beq_iff_eq.mp hq.1).symm
          simp only [stripCI]
          rw [if_pos hab]
          exact (ih s' r).mpr ⟨q', hs', hq.2⟩

/-- `afterLit` holds exactly when the suffix decomposes as the literal
(case-insensitively) followed by a character accepted by `f`. -/
theorem afterLit_iff (lit : List Char) (f : Char → Bool) (suf : List Char) :
    afterLit lit f suf = true
      ↔ ∃ q c r, suf = q ++ c :: r ∧ ciEqL q lit = true ∧ f c = true := by
  unfold afterLit
  cases hs : stripCI lit suf with
  | none =>
    simp only [Bool.false_eq_true, false_iff]
    rintro ⟨q, c, r, hsu, hq, _⟩
    have := (stripCI_some_iff lit suf (c :: r)).mpr ⟨q, hsu, hq⟩
    rw [hs] at this
    cases this
  | some rr =>
    obtain ⟨q, hsu, hq⟩ := (stripCI_some_iff lit suf rr).mp hs
    constructor
    · intro h
      cases rr with
      | nil => simp [headSat] at h
      | cons c r => exact ⟨q, c, r, by rw [hsu], hq, by simpa [headSat] using h⟩
    · rintro ⟨q', c', r', hsu', hq', hf'⟩
      have hlen : q.length = q'.length :=
        (ciEqL_length q lit hq).trans (ciEqL_length q' lit hq').symm
      obtain ⟨-, hrr⟩ := List.append_inj (hsu.symm.trans hsu') hlen
      rw [hrr]
      simpa [headSat] using hf'

/-- `hasLitThen` finds the literal-then-character shape anywhere. -/
theorem hasLitThen_iff (lit : List Char) (f : Char → Bool) (t : String) :
    hasLitThen lit f t = true
      ↔ ∃ l q c r, t.toList = l ++ (q ++ c :: r) ∧ ciEqL q lit = true ∧ f c = true := by
  unfold hasLitThen
  rw [tails_any_iff]
  constructor
  · rintro ⟨l, suf, hsplit, hp⟩
    obtain ⟨q, c, r, rfl, hq, hf⟩ := (afterLit_iff lit f suf).mp hp
    exact ⟨l, q, c, r, hsplit, hq, hf⟩
  · rintro ⟨l, q, c, r, hsplit, hq, hf⟩
    exact ⟨l, q ++ c :: r, hsplit, (afterLit_iff lit f _).mpr ⟨q, c, r, rfl, hq, hf⟩⟩

/-- Shape 1 of the specification: a scheme-prefixed URL — `http://` or
`https://` (case-insensitively) followed by at least one URL-body
character. -/
def SpecSchemeURL (t : String) : Prop :=
  ∃ l q c r, t.toList = l ++ (q ++ c :: r)
    ∧ (ciEqL q (("http://").toList) = true ∨ ciEqL q (("https://").toList) = true)
    ∧ urlChar c = true

/-- Shape 2: a `www.`-prefixed domain — `www.` (case-insensitively)
followed by at least one URL-body character. -/
def SpecWWW (t : String) : Prop :=
  ∃ l q c r, t.toList = l ++ (q ++ c :: r)
    ∧ ciEqL q (("www.").toList) = true ∧ urlChar c = true

/-- Shape 4: a `t.me/` deep link followed by at least one word
character. -/
def SpecTme (t : String) : Prop :=
  ∃ l q c r, t.toList = l ++ (q ++ c :: r)
    ∧ ciEqL q (("t.me/").toList) = true ∧ wordChar c = true

/-- Shape 5: an `@token.token` mention — `@`, a non-empty run of word
characters, a dot, a word character. -/
def SpecMention (t : String) : Prop :=
  ∃ l w c r, t.toList = l ++ '@' :: (w ++ '.' :: c :: r)
    ∧ w ≠ [] ∧ (∀ x ∈ w, wordChar x = true) ∧ wordChar c = true

/-- Shape 3 (as amended): one or more dot-terminated labels followed by a
2-plus-letter top-level segment; a label is 1–63 letters, digits or
hyphens, beginning and ending with a letter or digit. -/
def DomainShape (mid : List Char) : Prop :=
  ∃ labels tld, labels ≠ []
    ∧ mid = (labels.map (fun lab => lab ++ ['.'])).flatten ++ tld
    ∧ (∀ lab ∈ labels, isLabel lab = true) ∧ isTld tld = true

/-- Shape 3 occurring anywhere in the text. -/
def SpecDomain (t : String) : Prop :=
  ∃ l mid r, t.toList = l ++ (mid ++ r) ∧ DomainShape mid

/-- The scheme scanner recognizes exactly shape 1. -/
theorem hasSchemeURL_iff (t : String) : hasSchemeURL t = true ↔ SpecSchemeURL t := by
  unfold hasSchemeURL SpecSchemeURL
  rw [Bool.or_eq_true, hasLitThen_iff, hasLitThen_iff]
  constructor
  · rintro (⟨l, q, c, r, h1, h2, h3⟩ | ⟨l, q, c, r, h1, h2, h3⟩)
    exacts [⟨l, q, c, r, h1, Or.inl h2, h3⟩, ⟨l, q, c, r, h1, Or.inr h2, h3⟩]
  · rintro ⟨l, q, c, r, h1, h2 | h2, h3⟩
    exacts [Or.inl ⟨l, q, c, r, h1, h2, h3⟩, Or.inr ⟨l, q, c, r, h1, h2, h3⟩]

/-- The `www.` scanner recognizes exactly shape 2. -/
theorem hasWWWLink_iff (t : String) : hasWWWLink t = true ↔ SpecWWW t :=
  hasLitThen_iff (("www.").toList) urlChar t

/-- The `t.me/` scanner recognizes exactly shape 4. -/
theorem hasTmeLink_iff (t : String) : hasTmeLink t = true ↔ SpecTme t :=
  hasLitThen_iff (("t.me/").toList) wordChar t

/-- `takeWhile`/`dropWhile` on a word run followed by a stopper split the
list exactly at the stopper. -/
theorem takeWhile_middle (p : Char → Bool) :
    ∀ (w : List Char) (c : Char) (r : List Char),
      (∀ x ∈ w, p x = true) → p c = false →
      (w ++ c :: r).takeWhile p = w ∧ (w ++ c :: r).dropWhile p = c :: r := by
  intro w
  induction w with
  | nil =>
    intro c r _ hc
    simp [List.takeWhile_cons, List.dropWhile_cons, hc]
  | cons a w' ih =>
    intro c r hw hc
    have ha : p a = true := hw a (List.mem_cons_self a w')
    have hrec := ih c r (fun x hx => hw x (List.mem_cons_of_mem a hx)) hc
    simp [List.takeWhile_cons, List.dropWhile_cons, ha, hrec.1, hrec.2]

/-- The mention scanner at a position recognizes exactly shape 5's
decomposition of that suffix. -/
theorem mentionDotAt_iff (suf : List Char) :
    mentionDotAt suf = true
      ↔ ∃ w c r, suf = '@' :: (w ++ '.' :: c :: r)
          ∧ w ≠ [] ∧ (∀ x ∈ w, wordChar x = true) ∧ wordChar c = true := by
  cases suf with
  | nil =>
    simp only [mentionDotAt, Bool.false_eq_true, false_iff]
    rintro ⟨w, c, r, h, -⟩
    exact List.noConfusion h
  | cons a rest =>
    simp only [mentionDotAt, Bool.and_eq_true, beq_iff_eq]
    constructor
    · rintro ⟨rfl, hm⟩
      cases hd : rest.dropWhile wordChar with
      | nil => rw [hd] at hm; cases hm
      | cons d tail =>
        cases tail with
        | nil => rw [hd] at hm; cases hm
        | cons c rest2 =>
          rw [hd] at hm
          simp only [Bool.and_eq_true, beq_iff_eq] at hm
          obtain ⟨⟨hdot, hne⟩, hc⟩ := hm
          subst hdot
          refine ⟨rest.takeWhile wordChar, c, rest2, ?_, ?_, ?_, hc⟩
          · have hsplit := List.takeWhile_append_dropWhile (p := wordChar) (l := rest)
            rw [hd] at hsplit
            exact congrArg (fun x => '@' :: x) hsplit.symm
          · intro hnil
            rw [hnil] at hne
            simp at hne
          · intro x hx
            exact List.mem_takeWhile_imp hx
    · rintro ⟨w, c, r, hsuf, hwne, hw, hc⟩
      obtain ⟨rfl, hrest⟩ : a = '@' ∧ rest = w ++ '.' :: c :: r := by
        simpa using hsuf
      have hmid := takeWhile_middle wordChar w '.' (c :: r) hw (by decide)
      refine ⟨rfl, ?_⟩
      rw [hrest, hmid.2, hmid.1]
      have hwe : w.isEmpty = false := by
        cases w with
        | nil => exact absurd rfl hwne
        | cons _ _ => rfl
      simp [hwe, hc]

/-- The mention scanner over all suffixes recognizes exactly shape 5. -/
theorem hasMentionDot_iff (t : String) : hasMentionDot t = true ↔ SpecMention t := by
  unfold hasMentionDot SpecMention
  rw [tails_any_iff]
  constructor
  · rintro ⟨l, suf, hsplit, hp⟩
    obtain ⟨w, c, r, rfl, hwne, hw, hc⟩ := (mentionDotAt_iff suf).mp hp
    exact ⟨l, w, c, r, hsplit, hwne, hw, hc⟩
  · rintro ⟨l, w, c, r, hsplit, hwne, hw, hc⟩
    exact ⟨l, '@' :: (w ++ '.' :: c :: r), hsplit,
      (mentionDotAt_iff _).mpr ⟨w, c, r, rfl, hwne, hw, hc⟩⟩

/-- Rejoin dot-split pieces with dots. -/
def joinDots : List (List Char) → List Char
  | [] => []
  | [p] => p
  | p :: ps => p ++ '.' :: joinDots ps

/-- Equation: singleton. -/
theorem joinDots_single (p : List Char) : joinDots [p] = p := rfl

/-- Equation: at least two pieces. -/
theorem joinDots_cons2 (p q : List Char) (r : List (List Char)) :
    joinDots (p :: q :: r) = p ++ '.' :: joinDots (q :: r) := rfl

/-- Splitting on dots and rejoining is the identity. -/
theorem splitDotP_join : ∀ s : List Char,
    joinDots ((splitDotP s).1 :: (splitDotP s).2) = s := by
  intro s
  induction s with
  | nil => rfl
  | cons c t ih =>
    simp only [splitDotP]
    by_cases hc : (c == '.') = true
    · rw [if_pos hc, joinDots_cons2]
      simp [ih, beq_iff_eq.mp hc]
    · rw [if_neg hc]
      cases hsnd : (splitDotP t).2 with
      | nil =>
        rw [hsnd] at ih
        rw [joinDots_single] at ih
        rw [joinDots_single]
        simp [ih]
      | cons x xs =>
        rw [hsnd] at ih
        rw [joinDots_cons2]
        simp only [List.cons_append, List.cons.injEq, true_and]
        rw [← joinDots_cons2]
        exact ih

/-- No piece produced by the dot split contains a dot. -/
theorem splitDotP_no_dot : ∀ s : List Char,
    '.' ∉ (splitDotP s).1 ∧ ∀ p ∈ (splitDotP s).2, '.' ∉ p := by
  intro s
  induction s with
  | nil => exact ⟨by simp [splitDotP], by simp [splitDotP]⟩
  | cons c t ih =>
    simp only [splitDotP]
    by_cases hc : (c == '.') = true
    · rw [if_pos hc]
      refine ⟨by simp, ?_⟩
      intro p hp
      rcases List.mem_cons.mp hp with rfl | hp'
      · exact ih.1
      · exact ih.2 p hp'
    · rw [if_neg hc]
      refine ⟨?_, ih.2⟩
      intro hmem
      rcases List.mem_cons.mp hmem with rfl | hmem'
      · exact hc (beq_iff_eq.mpr rfl)
      · exact ih.1 hmem'

/-- Splitting a dot-free list returns it whole. -/
theorem splitDotP_dotfree : ∀ l : List Char, '.' ∉ l → splitDotP l = (l, []) := by
  intro l
  induction l with
  | nil => intro _; rfl
  | cons c t ih =>
    intro h
    have hc : (c == '.') = false := by
      cases hb : c == '.' with
      | true => exact absurd (List.mem_cons.mpr (Or.inl (beq_iff_eq.mp hb).symm)) h
      | false => rfl
    have iht := ih (fun hm => h (List.mem_cons_of_mem c hm))
    simp only [splitDotP, hc, Bool.false_eq_true, if_false]
    simp [List.append_eq, iht]

/-- Splitting a dot-free prefix followed by a dot peels off that prefix. -/
theorem splitDotP_append : ∀ (l r : List Char), '.' ∉ l →
    splitDotP (l ++ '.' :: r) = (l, (splitDotP r).1 :: (splitDotP r).2) := by
  intro l
  induction l with
  | nil =>
    intro r _
    simp [splitDotP]
  | cons c t ih =>
    intro r h
    have hc : (c == '.') = false := by
      cases hb : c == '.' with
      | true => exact absurd (List.mem_cons.mpr (Or.inl (beq_iff_eq.mp hb).symm)) h
      | false => rfl
    have iht := ih r (fun hm => h (List.mem_cons_of_mem c hm))
    simp only [List.cons_append, splitDotP, hc, Bool.false_eq_true, if_false]
    simp [List.append_eq, iht]

/-- Rejoining labels-plus-tld equals mapping dots onto the labels. -/
theorem joinDots_concat : ∀ (labels : List (List Char)) (tld : List Char),
    joinDots (labels ++ [tld])
      = (labels.map (fun lab => lab ++ ['.'])).flatten ++ tld := by
  intro labels
  induction labels with
  | nil => intro tld; rfl
  | cons lab labs ih =>
    intro tld
    cases labs with
    | nil => simp [joinDots_cons2, joinDots_single]
    | cons l2 ls =>
      rw [List.cons_append, List.cons_append, joinDots_cons2, ← List.cons_append, ih tld]
      simp [List.append_assoc]

/-- A label never contains a dot. -/
theorem isLabel_no_dot (l : List Char) (h : isLabel l = true) : '.' ∉ l := by
  intro hmem
  unfold isLabel at h
  simp only [Bool.and_eq_true] at h
  have hx := List.all_eq_true.mp h.2 '.' hmem
  exact absurd hx (by decide)

/-- A top-level segment never contains a dot. -/
theorem isTld_no_dot (l : List Char) (h : isTld l = true) : '.' ∉ l := by
  intro hmem
  unfold isTld at h
  simp only [Bool.and_eq_true] at h
  have hx := List.all_eq_true.mp h.2 '.' hmem
  exact absurd hx (by decide)

/-- Splitting a joined labels-plus-tld recovers the pieces. -/
theorem splitDot_joined : ∀ (labels : List (List Char)) (tld : List Char),
    (∀ lab ∈ labels, '.' ∉ lab) → '.' ∉ tld →
    splitDot ((labels.map (fun lab => lab ++ ['.'])).flatten ++ tld)
      = labels ++ [tld] := by
  intro labels
  induction labels with
  | nil =>
    intro tld _ ht
    simp only [List.map_nil, List.flatten_nil, List.nil_append, splitDot,
      splitDotP_dotfree tld ht, List.nil_append]
  | cons lab labs ih =>
    intro tld hlabs ht
    have hlab : '.' ∉ lab := hlabs lab (List.mem_cons_self lab labs)
    have hrest := ih tld (fun l hl => hlabs l (List.mem_cons_of_mem lab hl)) ht
    simp only [List.map_cons, List.flatten_cons, List.append_assoc]
    have harr : (['.'] : List Char)
        ++ ((labs.map (fun lab => lab ++ ['.'])).flatten ++ tld)
        = '.' :: ((labs.map (fun lab => lab ++ ['.'])).flatten ++ tld) := rfl
    rw [harr]
    unfold splitDot
    rw [splitDotP_append _ _ hlab]
    simp only [splitDot] at hrest
    simp [hrest]

/-- The domain-core scanner accepts exactly the amended shape-3
decompositions. -/
theorem isDomainCore_iff (mid : List Char) : isDomainCore mid = true ↔ DomainShape mid := by
  constructor
  · intro h
    unfold isDomainCore at h
    simp only [Bool.and_eq_true, decide_eq_true_eq] at h
    obtain ⟨⟨h2, hlab⟩, htld⟩ := h
    have hne : splitDot mid ≠ [] := by simp [splitDot]
    refine ⟨(splitDot mid).dropLast, (splitDot mid).getLast hne, ?_, ?_, ?_, ?_⟩
    · intro hnil
      have hlen := List.length_dropLast (splitDot mid)
      rw [hnil] at hlen
      simp at hlen
      omega
    · have hjoin : joinDots (splitDot mid) = mid := splitDotP_join mid
      have hdec := List.dropLast_concat_getLast hne
      calc mid = joinDots (splitDot mid) := hjoin.symm
        _ = joinDots ((splitDot mid).dropLast ++ [(splitDot mid).getLast hne]) := by
              rw [hdec]
        _ = ((splitDot mid).dropLast.map (fun lab => lab ++ ['.'])).flatten
              ++ (splitDot mid).getLast hne := joinDots_concat _ _
    · intro lab hl
      exact List.all_eq_true.mp hlab lab hl
    · have hgd : (splitDot mid).getLastD [] = (splitDot mid).getLast hne := by
        conv_lhs => rw [← List.dropLast_concat_getLast hne]
        rw [List.getLastD_concat]
      rw [hgd] at htld
      exact htld
  · rintro ⟨labels, tld, hne, hmid, hlabs, htld⟩
    have hnodot : ∀ lab ∈ labels, '.' ∉ lab :=
      fun lab hl => isLabel_no_dot lab (hlabs lab hl)
    have htnodot : '.' ∉ tld := isTld_no_dot tld htld
    have hsplit : splitDot mid = labels ++ [tld] := by
      rw [hmid]
      exact splitDot_joined labels tld hnodot htnodot
    unfold isDomainCore
    rw [hsplit]
    simp only [Bool.and_eq_true, decide_eq_true_eq]
    refine ⟨⟨?_, ?_⟩, ?_⟩
    · have : 0 < labels.length := List.length_pos.mpr hne
      simp [List.length_append]
      omega
    · rw [List.dropLast_concat]
      exact List.all_eq_true.mpr hlabs
    · rw [List.getLastD_concat]
      exact htld

/-- The bare-domain scanner recognizes exactly shape 3 (amended). -/
theorem hasBareDomain_iff (t : String) : hasBareDomain t = true ↔ SpecDomain t := by
  unfold hasBareDomain SpecDomain
  rw [tails_any_iff]
  constructor
  · rintro ⟨l, suf, hsplit, hp⟩
    obtain ⟨mid, r, rfl, hcore⟩ := (inits_any_iff isDomainCore suf).mp hp
    exact ⟨l, mid, r, hsplit, (isDomainCore_iff mid).mp hcore⟩
  · rintro ⟨l, mid, r, hsplit, hshape⟩
    exact ⟨l, mid ++ r, hsplit,
      (inits_any_iff isDomainCore (mid ++ r)).mpr
        ⟨mid, r, rfl, (isDomainCore_iff mid).mpr hshape⟩⟩

/-- C8 (amended): the link detector flags exactly the texts containing
one of the five shapes — a scheme-prefixed URL, a `www.`-prefixed domain,
a bare domain of one-or-more dot-terminated labels plus a 2-plus-letter
top-level segment, a `t.me/` deep link, or an `@token.token` mention —
matched case-insensitively against the raw text; and on empty text it
reports no link. -/
theorem link_detector_shapes :
    (∀ t : String, containsLink t = true ↔
      (SpecSchemeURL t ∨ SpecWWW t ∨ SpecDomain t ∨ SpecTme t ∨ SpecMention t))
    ∧ containsLink "" = false := by
  refine ⟨fun t => ?_, by decide⟩
  unfold containsLink
  simp only [Bool.or_eq_true]
  rw [hasSchemeURL_iff, hasWWWLink_iff, hasBareDomain_iff, hasTmeLink_iff,
    hasMentionDot_iff]
  tauto

/-- Witness for C8's equivalence, exercised in both directions at
concrete texts. -/
theorem link_detector_shapes_witness :
    containsLink ("go to t.me/chan now") = true
    ∧ containsLink ("no links here") = false :=
  ⟨(link_detector_shapes.1 ("go to t.me/chan now")).mpr
      (Or.inr (Or.inr (Or.inr (Or.inl
        ⟨("go to ").toList, ("t.me/").toList, 'c', ("han now").toList,
          by decide, by decide, by decide⟩)))),
   by decide⟩

/-- The claim's literal bare-domain shape `label(.label)+.tld`: at least
two labels (hence at least two dots) before the top-level segment, each
label a non-empty string of letters, digits and hyphens. -/
def isLabelLit (l : List Char) : Bool :=
  !l.isEmpty && l.all (fun c => c.isAlphanum || c == '-')

/-- Full-match test for the literal `label(.label)+.tld` shape. -/
def isDomainCoreLit (s : List Char) : Bool :=
  decide (3 ≤ (splitDot s).length)
    && (splitDot s).dropLast.all isLabelLit
    && isTld ((splitDot s).getLastD [])

/-- The literal shape searched anywhere in the text. -/
def hasBareDomainLit (t : String) : Bool :=
  t.toList.tails.any (fun suf => suf.inits.any isDomainCoreLit)

/-- C8 counterexample: `example.com` is flagged by the detector, yet it
contains none of the five shapes as literally specified — in particular
the spec's bare-domain shape `label(.label)+.tld` demands at least two
dots, and `example.com` has one. -/
theorem link_shape_counterexample :
    containsLink ("example.com") = true
    ∧ hasBareDomainLit ("example.com") = false
    ∧ hasSchemeURL ("example.com") = false
    ∧ hasWWWLink ("example.com") = false
    ∧ hasTmeLink ("example.com") = false
    ∧ hasMentionDot ("example.com") = false := by
  decide
